import Mathlib

set_option linter.unusedSectionVars false

/-!
Verification development for the SE(3)-equivariant convolution core
(`se3_cnn/convolution.py` and `se3_cnn/non_linearities/gated_activation.py`).

Modelling conventions:
* Float arithmetic is idealized as exact arithmetic: an arbitrary commutative
  ring `α` where the code only adds and multiplies (kernel combination, gated
  activation), the reals `ℝ` where square roots appear (basis normalization).
  Concrete evaluations instantiate `α := ℤ`.
* A basis tensor of shape `(dim_out, dim_in, size, size, size)` is modelled
  with the three spatial axes flattened into one index `s < size ^ 3`; the
  kernel-combination code never addresses individual spatial coordinates, it
  always copies whole spatial slabs, so this loses nothing.
* An SO(3) representation `R` enters the combination code only through
  `SO3.dim R`; a typed representation list `[(m, R), ...]` is therefore
  modelled as a list of pairs `(multiplicity, dimension)`.
* `torch.FloatTensor(n0, n1, ...)` allocates UNINITIALIZED memory; the model
  makes the initial buffer contents an explicit parameter `init`.
-/

/-- Block tensor: a function of (output sub-channel `a`, input sub-channel `b`,
flattened voxel index `s`).  Entries are idealized float values in a
commutative ring `α`. -/
abbrev BT (α : Type) := ℕ → ℕ → ℕ → α

/-- The all-zero block tensor (also used as out-of-range default). -/
def zBT (α : Type) [CommRing α] : BT α := fun _ _ _ => 0

/-- State held by `SE3KernelCombination` after `__init__`: the kernel size,
the multiplicity and dimension lists of the (already filtered) output and
input representation lists, and the per-pair basis tensors
(`self.kernels[i][j]` is the ordered basis list for block pair `(i, j)`). -/
structure SE3KernelCombination (α : Type) where
  size : ℕ
  multiplicites_out : List ℕ
  multiplicites_in : List ℕ
  dims_out : List ℕ
  dims_in : List ℕ
  kernels : List (List (List (BT α)))

variable {α : Type} [CommRing α]

/-- Constructor (`SE3KernelCombination.__init__`): drops entries with
multiplicity `< 1` from both representation lists, then records
multiplicities and dimensions.  The pair `(m, d)` stands for the source's
`(m, R)` with `d = SO3.dim R`.  The basis lists (built in the source by
`generate_basis`, modelled separately below over `ℝ`) are passed as data. -/
def mkCombination (size : ℕ) (RsOut RsIn : List (ℕ × ℕ))
    (kernels : List (List (List (BT α)))) : SE3KernelCombination α :=
  { size := size
    multiplicites_out := (RsOut.filter (fun p => 1 ≤ p.1)).map Prod.fst
    multiplicites_in := (RsIn.filter (fun p => 1 ≤ p.1)).map Prod.fst
    dims_out := (RsOut.filter (fun p => 1 ≤ p.1)).map Prod.snd
    dims_in := (RsIn.filter (fun p => 1 ≤ p.1)).map Prod.snd
    kernels := kernels }

/-- Multiplicity of output block `i` (`self.multiplicites_out[i]`). -/
def SE3KernelCombination.mOut (c : SE3KernelCombination α) (i : ℕ) : ℕ :=
  c.multiplicites_out.getD i 0

/-- Multiplicity of input block `j` (`self.multiplicites_in[j]`). -/
def SE3KernelCombination.mIn (c : SE3KernelCombination α) (j : ℕ) : ℕ :=
  c.multiplicites_in.getD j 0

/-- Dimension of output block `i` (`self.dims_out[i]`). -/
def SE3KernelCombination.dOut (c : SE3KernelCombination α) (i : ℕ) : ℕ :=
  c.dims_out.getD i 0

/-- Dimension of input block `j` (`self.dims_in[j]`). -/
def SE3KernelCombination.dIn (c : SE3KernelCombination α) (j : ℕ) : ℕ :=
  c.dims_in.getD j 0

/-- Number of output blocks (`len(Rs_out)` after filtering). -/
def SE3KernelCombination.lenOut (c : SE3KernelCombination α) : ℕ :=
  c.multiplicites_out.length

/-- Number of input blocks (`len(Rs_in)` after filtering). -/
def SE3KernelCombination.lenIn (c : SE3KernelCombination α) : ℕ :=
  c.multiplicites_in.length

/-- Basis count for block pair `(i, j)` (`self.kernels[i][j].size(0)`). -/
def SE3KernelCombination.bCount (c : SE3KernelCombination α) (i j : ℕ) : ℕ :=
  ((c.kernels.getD i []).getD j []).length

/-- Basis element `k` of block pair `(i, j)` (`self.kernels[i][j][k]`). -/
def SE3KernelCombination.bK (c : SE3KernelCombination α) (i j k : ℕ) : BT α :=
  ((c.kernels.getD i []).getD j []).getD k (zBT α)

/-- Total weight count, computed by the accumulation loop of `__init__`
(`self.nweights += multiplicites_out[i] * multiplicites_in[j] *
kernels[i][j].size(0)` over all `i`, `j`). -/
def SE3KernelCombination.nweights (c : SE3KernelCombination α) : ℕ :=
  (List.range c.lenOut).foldl (fun acc i =>
    (List.range c.lenIn).foldl (fun acc2 j =>
      acc2 + c.mOut i * c.mIn j * c.bCount i j) acc) 0

/-- Value of the running channel offset `begin_i` when the forward/backward
loops reach output block `i`: the loop adds
`multiplicites_out[r] * dims_out[r]` after finishing each block `r < i`. -/
def SE3KernelCombination.beginOut (c : SE3KernelCombination α) (i : ℕ) : ℕ :=
  ∑ r ∈ Finset.range i, c.mOut r * c.dOut r

/-- Value of the running channel offset `begin_j` when the loops reach input
block `j`. -/
def SE3KernelCombination.beginIn (c : SE3KernelCombination α) (j : ℕ) : ℕ :=
  ∑ r ∈ Finset.range j, c.mIn r * c.dIn r

/-- First output channel of the slice `si` for copy `ii` of output block `i`
(`begin_i + ii * dims_out[i]`). -/
def SE3KernelCombination.sliceOut (c : SE3KernelCombination α) (i ii : ℕ) :
    ℕ :=
  c.beginOut i + ii * c.dOut i

/-- First input channel of the slice `sj` for copy `jj` of input block `j`
(`begin_j + jj * dims_in[j]`). -/
def SE3KernelCombination.sliceIn (c : SE3KernelCombination α) (j jj : ℕ) :
    ℕ :=
  c.beginIn j + jj * c.dIn j

/-- The sequence of innermost loop steps `(i, j, ii, jj, k)` of `forward` and
`backward`, in the source's nested iteration order: output blocks `i`, input
blocks `j`, output copies `ii`, input copies `jj`, basis indices `k`.  The
running `weight_index` of the source is the position in this list. -/
def SE3KernelCombination.steps (c : SE3KernelCombination α) :
    List (ℕ × ℕ × ℕ × ℕ × ℕ) :=
  (List.range c.lenOut).flatMap fun i =>
    (List.range c.lenIn).flatMap fun j =>
      (List.range (c.mOut i)).flatMap fun ii =>
        (List.range (c.mIn j)).flatMap fun jj =>
          (List.range (c.bCount i j)).map fun k => (i, j, ii, jj, k)

/-- One innermost step of `forward`:
`kernel[si, sj] = self.kernels[i][j][k] * weight[weight_index]`.
This is an ASSIGNMENT (`=`, not `+=`) of the whole
`dims_out[i] × dims_in[j] × size³` slab addressed by `(si, sj)`. -/
def writeStep (c : SE3KernelCombination α) (w : List α) (acc : BT α)
    (st : ℕ × (ℕ × ℕ × ℕ × ℕ × ℕ)) : BT α :=
  match st with
  | (widx, i, j, ii, jj, k) =>
    fun o ci s =>
      if c.sliceOut i ii ≤ o ∧ o < c.sliceOut i ii + c.dOut i ∧
         c.sliceIn j jj ≤ ci ∧ ci < c.sliceIn j jj + c.dIn j then
        c.bK i j k (o - c.sliceOut i ii) (ci - c.sliceIn j jj) s * w.getD widx 0
      else acc o ci s

/-- A dense kernel tensor with its shape: `(n_out, n_in, size, size, size)`,
spatial axes flattened in `data`. -/
structure Kernel5 (α : Type) where
  nOut : ℕ
  nIn : ℕ
  size : ℕ
  data : BT α

/-- Forward pass of `SE3KernelCombination`: checks `weight.size(0) ==
self.nweights` (the model's weight list is one-dimensional by construction,
covering `weight.dim() == 1`), allocates the `(n_out, n_in, size³)` buffer
with uninitialized contents `init`, and performs the nested-loop writes in
declaration order, with `weight_index` consumed sequentially. -/
def SE3KernelCombination.forward (c : SE3KernelCombination α) (init : BT α)
    (w : List α) : Option (Kernel5 α) :=
  if w.length = c.nweights then
    some { nOut := ∑ i ∈ Finset.range c.lenOut, c.mOut i * c.dOut i
           nIn := ∑ j ∈ Finset.range c.lenIn, c.mIn j * c.dIn j
           size := c.size
           data := c.steps.enum.foldl (writeStep c w) init }
  else none

/-- One innermost step of `backward`: the flattened dot product
`torch.matmul(self.kernels[i][j][k].view(-1), grad_kernel[si, sj].view(-1))`
of basis element `(i, j, k)` with the kernel-gradient slab at `(si, sj)`. -/
def gradStep (c : SE3KernelCombination α) (g : BT α)
    (st : ℕ × ℕ × ℕ × ℕ × ℕ) : α :=
  match st with
  | (i, j, ii, jj, k) =>
    ∑ a ∈ Finset.range (c.dOut i), ∑ b ∈ Finset.range (c.dIn j),
      ∑ s ∈ Finset.range (c.size ^ 3),
        c.bK i j k a b s * g (c.sliceOut i ii + a) (c.sliceIn j jj + b) s

/-- Backward pass of `SE3KernelCombination`: fills `grad_weight` sequentially,
one entry per step, in the same nested order as `forward`. -/
def SE3KernelCombination.backward (c : SE3KernelCombination α) (g : BT α) :
    List α :=
  c.steps.map (gradStep c g)

/-- Euclidean inner product of two flat weight vectors. -/
def dotW (v w : List α) : α := (List.zipWith (· * ·) v w).sum

/-- Euclidean inner product of two kernel-shaped tensors over the index box
`(nOut, nIn, nS)`. -/
def dotK (nOut nIn nS : ℕ) (g k : BT α) : α :=
  ∑ o ∈ Finset.range nOut, ∑ ci ∈ Finset.range nIn, ∑ s ∈ Finset.range nS,
    g o ci s * k o ci s

/-- Constant-one block tensor. -/
def oneBT : BT ℤ := fun _ _ _ => 1

/-- Constant-seven block tensor, standing for arbitrary garbage left in the
uninitialized output buffer. -/
def sevenBT : BT ℤ := fun _ _ _ => 7

/-- Single-pair configuration with `1 × 1` blocks, kernel size 1, and a
two-element basis whose elements are the constants 2 and 3. -/
def combTwo : SE3KernelCombination ℤ :=
  mkCombination 1 [(1, 1)] [(1, 1)]
    [[[fun _ _ _ => 2, fun _ _ _ => 3]]]

/-- Single-pair configuration with `1 × 1` blocks, kernel size 1, and a
two-element basis whose elements are both the constant 1. -/
def combOnes : SE3KernelCombination ℤ :=
  mkCombination 1 [(1, 1)] [(1, 1)] [[[oneBT, oneBT]]]

/-- Single-pair configuration with `1 × 1` blocks, kernel size 1, and an
EMPTY basis for its only representation pair. -/
def combEmpty : SE3KernelCombination ℤ :=
  mkCombination 1 [(1, 1)] [(1, 1)] [[[]]]

/-!
Gated activation (`se3_cnn/non_linearities/gated_activation.py`).

A feature tensor is modelled as a `List α` of channels; each channel stands
for a whole `[batch, x, y, z]` slab, so multiplying two channels is the
pointwise product of slabs (any commutative ring `α` covers this).  The gate
tensor `g` (the output of the internal convolution `self.gates(x)` followed
by the gate activation) is passed as data, since the dense convolution is an
external collaborator.
-/

/-- Configuration recorded by `GatedActivation.__init__`: whether a scalar
activation is installed (`self.scalar_act is not None`) and whether the gate
branch is installed (`self.gates is not None`). -/
structure GatedConfig where
  scalarActOn : Bool
  gatesOn : Bool
deriving DecidableEq

/-- Constructor `GatedActivation.__init__`, with `repr0 = repr_in[0]` and
`reprRest = repr_in[1:]` (the source indexes `repr_in[0]`, so the tuple is
non-empty).  `scalarAct` / `gateAct` record whether the scalar and gate
activation functions are `not None`.  The assert
`size % 2 == 1` runs only when `gate_activation is not None` and
`n_non_scalar > 0`; a failed assert is `none`.  The choice of normalization
wrapper only selects the convolution class and is omitted. -/
def GatedActivation.init (repr0 : ℕ) (reprRest : List ℕ) (size : ℕ)
    (scalarAct gateAct : Bool) : Option GatedConfig :=
  if gateAct = true ∧ 0 < reprRest.sum ∧ size % 2 ≠ 1 then none
  else
    some { scalarActOn := if 0 < repr0 then scalarAct else false
           gatesOn := if 0 < reprRest.sum then gateAct else false }

/-- The per-block loop of `GatedActivation.forward`, processing the pairs
`(n, mul)` of `enumerate(self.repr_in)` while carrying the running offsets
`begin_x` and `begin_g`; returns the list `zs` of processed blocks.
A block with `mul == 0` is skipped (`continue`).  For `n == 0` the scalar
activation is applied when installed; for `n > 0` with gates installed,
channel `c` of the block (capsule `c / dim`, `dim = 2n+1`) is multiplied by
gate channel `begin_g + c / dim`; `begin_g` advances by `mul` exactly in
that branch. -/
def gaBlocks (σ : α → α) (scalarOn gatesOn : Bool) (x g : List α) :
    List (ℕ × ℕ) → ℕ → ℕ → List (List α)
  | [], _, _ => []
  | (n, mul) :: rest, bx, bg =>
    if mul = 0 then gaBlocks σ scalarOn gatesOn x g rest bx bg
    else
      (if n = 0 then
        (if scalarOn = true then ((x.drop bx).take (mul * (2 * n + 1))).map σ
         else (x.drop bx).take (mul * (2 * n + 1)))
       else if gatesOn = true then
        ((x.drop bx).take (mul * (2 * n + 1))).enum.map
          (fun cv => cv.2 * g.getD (bg + cv.1 / (2 * n + 1)) 0)
       else (x.drop bx).take (mul * (2 * n + 1))) ::
      gaBlocks σ scalarOn gatesOn x g rest (bx + mul * (2 * n + 1))
        (if 0 < n ∧ gatesOn = true then bg + mul else bg)

/-- Forward pass of `GatedActivation`: runs the block loop, then
`torch.cat(zs, dim=1)`, which raises when `zs` is empty (`none`); the gate
channels `g` are consumed only inside the block loop, never concatenated. -/
def GatedActivation.forward (σ : α → α) (scalarOn gatesOn : Bool)
    (repr_in : List ℕ) (x g : List α) : Option (List α) :=
  let zs := gaBlocks σ scalarOn gatesOn x g repr_in.enum 0 0
  if zs.isEmpty then none else some zs.flatten

/-- Channel offset of block `m` in the input tensor: the sum of
`mul * (2 n + 1)` over the blocks `n < m`. -/
def gaOffX (repr_in : List ℕ) (m : ℕ) : ℕ :=
  ∑ t ∈ Finset.range m, repr_in.getD t 0 * (2 * t + 1)

/-- Total channel count declared by a representation list. -/
def reprDim (repr_in : List ℕ) : ℕ :=
  gaOffX repr_in repr_in.length

/-- Gate-channel offset of block `m`: the sum of the multiplicities of the
non-scalar blocks before it. -/
def gaOffG (repr_in : List ℕ) (m : ℕ) : ℕ :=
  ∑ t ∈ Finset.range m, if t = 0 then 0 else repr_in.getD t 0

/-- Closed-form description of the processed block of order `n`: the slice of
`x` of length `mul * (2n+1)` starting at the closed-form offset, with the
scalar activation applied (block 0) or each channel multiplied by its gate
value (blocks `n > 0` with gates on). -/
def gaBlockOut (σ : α → α) (scalarOn gatesOn : Bool) (repr_in : List ℕ)
    (x g : List α) (n : ℕ) : List α :=
  if n = 0 then
    (if scalarOn = true then
      ((x.drop (gaOffX repr_in n)).take (repr_in.getD n 0 * (2 * n + 1))).map σ
     else (x.drop (gaOffX repr_in n)).take (repr_in.getD n 0 * (2 * n + 1)))
  else if gatesOn = true then
    ((x.drop (gaOffX repr_in n)).take
        (repr_in.getD n 0 * (2 * n + 1))).enum.map
      (fun cv => cv.2 * g.getD (gaOffG repr_in n + cv.1 / (2 * n + 1)) 0)
  else (x.drop (gaOffX repr_in n)).take (repr_in.getD n 0 * (2 * n + 1))

/-- Closed-form list of processed blocks for the block orders in
`[m, repr_in.length)` whose multiplicity is nonzero. -/
def gaExpectedFrom (σ : α → α) (scalarOn gatesOn : Bool) (repr_in : List ℕ)
    (x g : List α) (m : ℕ) : List (List α) :=
  ((List.range' m (repr_in.length - m)).filter
      (fun n => repr_in.getD n 0 ≠ 0)).map
    (gaBlockOut σ scalarOn gatesOn repr_in x g)

/-- Closed-form expected output of `GatedActivation.forward`: the nonzero
blocks, in input order, concatenated along the channel dimension; built only
from slices of `x` and the gate values of `g`, never from `g` channels
themselves. -/
def gaExpected (σ : α → α) (scalarOn gatesOn : Bool) (repr_in : List ℕ)
    (x g : List α) : List α :=
  (gaExpectedFrom σ scalarOn gatesOn repr_in x g 0).flatten

/-!
Basis generation (`generate_basis` inside `SE3KernelCombination.__init__`).

The sampled candidate basis (`basis_kernels.cube_basis_kernels_subsampled_cosine`)
and the exact central solutions (`basis_kernels.basis_kernels_satisfying_SO3_constraint`)
live in `se3_cnn/basis_kernels.py`, outside the sources at hand; their outputs
enter here as the data `sampled` and `Ks`.  The code under verification is
the central-voxel placement, the concatenation order, and the normalization
loop, which are independent of those values.  Square roots force the reals.
-/

/-- Five-axis basis tensor over `ℝ`: indices `(a, b, x, y, z)` with
`a < dim(R_out)`, `b < dim(R_in)`, spatial coordinates `x, y, z < size`. -/
abbrev BT5 := ℕ → ℕ → ℕ → ℕ → ℕ → ℝ

/-- The all-zero five-axis tensor (out-of-range default). -/
def zBT5 : BT5 := fun _ _ _ _ _ => 0

/-- A `dim(R_out) × dim(R_in)` matrix over `ℝ`. -/
abbrev CMat := ℕ → ℕ → ℝ

/-- The zero matrix (out-of-range default). -/
def zCMat : CMat := fun _ _ => 0

/-- Frobenius norm `np.linalg.norm(basis[k])` of a basis element of shape
`(dO, dI, size, size, size)`. -/
noncomputable def frobNorm (dO dI size : ℕ) (t : BT5) : ℝ :=
  Real.sqrt (∑ a ∈ Finset.range dO, ∑ b ∈ Finset.range dI,
    ∑ x ∈ Finset.range size, ∑ y ∈ Finset.range size,
      ∑ z ∈ Finset.range size, (t a b x y z) ^ 2)

/-- The three in-place statements of the normalization loop, applied to one
element: `basis[k] /= np.linalg.norm(basis[k])`, then
`basis[k] *= np.sqrt(SO3.dim(R_out) / len(basis))`, then
`basis[k] /= np.sqrt(m_in)`; `count` is `len(basis)` at loop time. -/
noncomputable def normalizeK (dO dI size count mIn : ℕ) (t : BT5) : BT5 :=
  fun a b x y z =>
    t a b x y z / frobNorm dO dI size t * Real.sqrt ((dO : ℝ) / count) /
      Real.sqrt (mIn : ℝ)

/-- Central-voxel embedding of one exact solution `K`:
`center[k, :, :, size//2, size//2, size//2] = K` on a zero background. -/
def centerK (size : ℕ) (K : CMat) : BT5 :=
  fun a b x y z =>
    if x = size / 2 ∧ y = size / 2 ∧ z = size / 2 then K a b else 0

/-- The un-normalized basis list: when `central_base` is set and `size` is
odd, `np.concatenate((center, basis))` prepends the central elements to the
sampled ones; otherwise just the sampled elements. -/
def rawBasis (size : ℕ) (central_base : Bool) (Ks : List CMat)
    (sampled : List BT5) : List BT5 :=
  if central_base = true ∧ size % 2 = 1 then Ks.map (centerK size) ++ sampled
  else sampled

/-- The closure `generate_basis` of `SE3KernelCombination.__init__`: builds
the (optionally center-extended) candidate list, then normalizes every
element with `len(basis)` taken AFTER the concatenation. -/
noncomputable def generate_basis (dO dI size mIn : ℕ) (central_base : Bool)
    (Ks : List CMat) (sampled : List BT5) : List BT5 :=
  (rawBasis size central_base Ks sampled).map
    (normalizeK dO dI size (rawBasis size central_base Ks sampled).length mIn)

/-! Helper lemmas. -/

/-- A left fold that only accumulates additions over `List.range` is the
corresponding `Finset.range` sum. -/
lemma foldl_add_eq_sum (f : ℕ → ℕ) :
    ∀ (n a : ℕ), (List.range n).foldl (fun acc i => acc + f i) a =
      a + ∑ i ∈ Finset.range n, f i := by
  intro n
  induction n with
  | zero => intro a; simp
  | succ n ih =>
    intro a
    rw [List.range_succ, List.foldl_append, ih]
    simp [Finset.sum_range_succ, Nat.add_assoc]

/-- The accumulation loop computing `self.nweights` equals the double sum of
`multiplicites_out[i] * multiplicites_in[j] * kernels[i][j].size(0)`. -/
lemma nweights_eq_sum (c : SE3KernelCombination α) :
    c.nweights = ∑ i ∈ Finset.range c.lenOut, ∑ j ∈ Finset.range c.lenIn,
      c.mOut i * c.mIn j * c.bCount i j := by
  unfold SE3KernelCombination.nweights
  have h1 : ∀ (i acc : ℕ),
      (List.range c.lenIn).foldl
        (fun acc2 j => acc2 + c.mOut i * c.mIn j * c.bCount i j) acc =
      acc + ∑ j ∈ Finset.range c.lenIn, c.mOut i * c.mIn j * c.bCount i j :=
    fun i acc => foldl_add_eq_sum _ _ _
  simp only [h1]
  rw [foldl_add_eq_sum, Nat.zero_add]

/-- Summing `fst * snd` of list entries through `getD` over the index range
is the sum of the per-entry products. -/
lemma sum_getD_mul (L : List (ℕ × ℕ)) :
    ∑ i ∈ Finset.range L.length,
      (L.map Prod.fst).getD i 0 * (L.map Prod.snd).getD i 0 =
    (L.map (fun p => p.1 * p.2)).sum := by
  induction L with
  | nil => simp
  | cons p L ih =>
    rw [List.length_cons, Finset.sum_range_succ']
    simp only [List.map_cons, List.getD_cons_succ, List.getD_cons_zero]
    rw [ih, List.sum_cons, Nat.add_comm]


/-- Claim C1: evaluation of `forward` at a failing input.  For the single
`1 × 1` pair with basis `[2, 3]` and weights `[1, 1]` (a correct-length
weight vector and a pair with `basis_count > 1`), the resulting sub-block
holds only the LAST term `3 * 1`: the innermost statement assigns
(`kernel[si, sj] = ...`) instead of accumulating, so the sub-block is not
the sum `2 * 1 + 3 * 1` over the basis indices that the claim states. -/
theorem claim_C1_code_eval :
    (combTwo.forward (zBT ℤ) [1, 1]).map (fun K => K.data 0 0 0) = some 3 ∧
    (3 : ℤ) ≠ 2 * 1 + 3 * 1 := by decide

/-- Claim C2: evaluation of `forward` and `backward` at a failing input.
For the single `1 × 1` pair with both basis elements constantly `1`, weights
`w = [1, 1]`, zero-initialized buffer, and kernel-space gradient `g = 1`:
`backward` dots EVERY basis element against `g`, giving
`dot(backward(g), w) = 2`, while `forward` keeps only the last basis
element's slab, giving `dot(g, forward(w)) = 1`; the adjoint identity the
claim states fails. -/
theorem claim_C2_code_eval :
    dotW (combOnes.backward oneBT) [1, 1] = 2 ∧
    (combOnes.forward (zBT ℤ) [1, 1]).map
      (fun K => dotK K.nOut K.nIn (combOnes.size ^ 3) oneBT K.data) =
      some 1 ∧
    (2 : ℤ) ≠ 1 := by decide

/-- Claim C3: evaluation at a failing input.  For the single pair whose basis
list is EMPTY, the pair indeed contributes zero weight entries
(`nweights = 0`, first conjunct), but with the valid (empty) weight vector
the pair's sub-block is never written, so it keeps the uninitialized buffer
contents (`7` here) instead of the zeros the claim states. -/
theorem claim_C3_code_eval :
    combEmpty.nweights = 0 ∧
    (combEmpty.forward sevenBT []).map (fun K => K.data 0 0 0) = some 7 ∧
    (7 : ℤ) ≠ 0 := by decide

/-- Claim C4: the precomputed total weight count equals
`∑ (i, j), multiplicites_out[i] * multiplicites_in[j] *
kernels[i][j].size(0)`, and `forward` applied to a weight vector of any
other length returns the failure value immediately, producing no kernel. -/
theorem claim_C4 (c : SE3KernelCombination α) (init : BT α) (w : List α)
    (h : w.length ≠ c.nweights) :
    c.nweights = (∑ i ∈ Finset.range c.lenOut, ∑ j ∈ Finset.range c.lenIn,
      c.mOut i * c.mIn j * c.bCount i j) ∧
    c.forward init w = none :=
  ⟨nweights_eq_sum c, by unfold SE3KernelCombination.forward; rw [if_neg h]⟩

/-- Claim C4, witness: the two-basis configuration has weight count 2, and a
length-1 weight vector is rejected. -/
theorem claim_C4_witness :
    combTwo.nweights = (∑ i ∈ Finset.range combTwo.lenOut,
      ∑ j ∈ Finset.range combTwo.lenIn,
        combTwo.mOut i * combTwo.mIn j * combTwo.bCount i j) ∧
    combTwo.forward (zBT ℤ) [1] = none :=
  claim_C4 combTwo (zBT ℤ) [1] (by decide)

/-- Claim C9: for every weight vector of the correct length, `forward`
returns a kernel whose shape is `(Σ m_out * dim_out, Σ m_in * dim_in, size,
size, size)` where both sums range over the representation lists surviving
the `multiplicity ≥ 1` filter of `__init__`; the shape formula does not
involve the weight values. -/
theorem claim_C9 (size : ℕ) (RsOut RsIn : List (ℕ × ℕ))
    (kernels : List (List (List (BT α)))) (init : BT α) (w : List α)
    (h : w.length = (mkCombination size RsOut RsIn kernels).nweights) :
    ∃ K, (mkCombination size RsOut RsIn kernels).forward init w = some K ∧
      K.nOut = ((RsOut.filter (fun p => 1 ≤ p.1)).map
        (fun p => p.1 * p.2)).sum ∧
      K.nIn = ((RsIn.filter (fun p => 1 ≤ p.1)).map
        (fun p => p.1 * p.2)).sum ∧
      K.size = size := by
  unfold SE3KernelCombination.forward
  rw [if_pos h]
  refine ⟨_, rfl, ?_, ?_, rfl⟩
  · simp only [mkCombination, SE3KernelCombination.lenOut,
      SE3KernelCombination.mOut, SE3KernelCombination.dOut]
    rw [List.length_map]
    exact sum_getD_mul _
  · simp only [mkCombination, SE3KernelCombination.lenIn,
      SE3KernelCombination.mIn, SE3KernelCombination.dIn]
    rw [List.length_map]
    exact sum_getD_mul _

/-- Claim C9, witness: a zero-multiplicity output entry is dropped by the
filter, and the combined kernel of a valid weight vector has shape
`(1, 1, 1, 1, 1)`. -/
theorem claim_C9_witness :
    ∃ K, (mkCombination 1 [(1, 1), (0, 5)] [(1, 1)]
        [[[oneBT]]]).forward (zBT ℤ) [2] = some K ∧
      K.nOut = (([(1, 1), (0, 5)].filter (fun p => 1 ≤ p.1)).map
        (fun p => p.1 * p.2)).sum ∧
      K.nIn = (([((1 : ℕ), (1 : ℕ))].filter (fun p => 1 ≤ p.1)).map
        (fun p => p.1 * p.2)).sum ∧
      K.size = 1 :=
  claim_C9 1 [(1, 1), (0, 5)] [(1, 1)] [[[oneBT]]] (zBT ℤ) [2] (by decide)

/-- Every pair produced by `List.enumFrom` carries an element of the list. -/
lemma snd_mem_of_mem_enumFrom :
    ∀ (l : List ℕ) (k : ℕ) (p : ℕ × ℕ), p ∈ l.enumFrom k → p.2 ∈ l := by
  intro l
  induction l with
  | nil => intro k p h; simp [List.enumFrom] at h
  | cons a l ih =>
    intro k p h
    rcases List.mem_cons.mp h with h1 | h2
    · rw [h1]; exact List.mem_cons_self a l
    · exact List.mem_cons_of_mem a (ih (k + 1) p h2)

/-- If every multiplicity in the pair list is zero, the block loop skips
every block and produces no processed blocks. -/
lemma gaBlocks_nil_of_zero (σ : α → α) (sOn gOn : Bool) (x g : List α) :
    ∀ (pairs : List (ℕ × ℕ)) (bx bg : ℕ), (∀ p ∈ pairs, p.2 = 0) →
      gaBlocks σ sOn gOn x g pairs bx bg = [] := by
  intro pairs
  induction pairs with
  | nil => intro bx bg _; simp [gaBlocks]
  | cons q rest ih =>
    intro bx bg h
    obtain ⟨n, mul⟩ := q
    have hm : mul = 0 := h (n, mul) (List.mem_cons_self _ _)
    simp only [gaBlocks]
    rw [if_pos hm]
    exact ih bx bg (fun p hp => h p (List.mem_cons_of_mem _ hp))

/-- Claim C5, counterexample: with a gate activation configured and EVEN
kernel size 4, construction SUCCEEDS when the representation list
`repr_in = (1,)` has no non-scalar entry — the even-size check is guarded by
`n_non_scalar > 0`, so the claim's "for every input representation list" is
false. -/
theorem claim_C5_counterexample :
    GatedActivation.init 1 [] 4 true true ≠ none := by decide

/-- Claim C5, amended: constructing a gated activation with a gate
activation function configured fails fast at construction time exactly when
the kernel size is even AND the input representation list contains at least
one non-scalar channel; with only scalar channels the gate branch is
silently disabled and no error is raised. -/
theorem claim_C5 (repr0 : ℕ) (reprRest : List ℕ) (size : ℕ)
    (scalarAct : Bool) :
    GatedActivation.init repr0 reprRest size scalarAct true = none ↔
      0 < reprRest.sum ∧ size % 2 = 0 := by
  unfold GatedActivation.init
  by_cases h : true = true ∧ 0 < reprRest.sum ∧ size % 2 ≠ 1
  · rw [if_pos h]
    simp only [true_iff]
    exact ⟨h.2.1, by omega⟩
  · rw [if_neg h]
    push_neg at h
    simp only [reduceCtorEq, false_iff, not_and]
    intro h1 h2
    have := h rfl h1
    omega

/-- Claim C10: if every multiplicity in the representation list is zero,
`forward` fails for every input (the block loop yields no blocks and
`torch.cat` of an empty list raises). -/
theorem claim_C10 (σ : α → α) (sOn gOn : Bool) (repr_in : List ℕ)
    (x g : List α) (h : ∀ mul ∈ repr_in, mul = 0) :
    GatedActivation.forward σ sOn gOn repr_in x g = none := by
  unfold GatedActivation.forward
  have hz : gaBlocks σ sOn gOn x g (repr_in.enumFrom 0) 0 0 = [] :=
    gaBlocks_nil_of_zero σ sOn gOn x g _ 0 0
      (fun p hp => h p.2 (snd_mem_of_mem_enumFrom repr_in 0 p hp))
  have henum : repr_in.enum = repr_in.enumFrom 0 := rfl
  rw [henum, hz]
  rfl

/-- Claim C10, witness: both multiplicities zero, a concrete input. -/
theorem claim_C10_witness :
    (∀ mul ∈ [0, 0], mul = 0) ∧
    GatedActivation.forward (fun v : ℤ => v + 1) true true [0, 0]
      [1, 2] [3] = none :=
  ⟨by decide,
   claim_C10 (fun v : ℤ => v + 1) true true [0, 0] [1, 2] [3] (by decide)⟩

/-- The channel offset of block 0 is 0. -/
lemma gaOffX_zero (repr_in : List ℕ) : gaOffX repr_in 0 = 0 := by
  simp [gaOffX]

/-- The gate offset of block 0 is 0. -/
lemma gaOffG_zero (repr_in : List ℕ) : gaOffG repr_in 0 = 0 := by
  simp [gaOffG]

/-- Past the end of the representation list the channel offset saturates at
the total channel count. -/
lemma gaOffX_of_le (repr_in : List ℕ) {m : ℕ} (h : repr_in.length ≤ m) :
    gaOffX repr_in m = reprDim repr_in := by
  unfold reprDim gaOffX
  refine (Finset.sum_subset (Finset.range_subset.mpr h) ?_).symm
  intro t _ ht
  rw [List.getD_eq_default _ _ (by simpa using ht)]
  exact Nat.zero_mul _

/-- The channel offset never exceeds the total channel count. -/
lemma gaOffX_le (repr_in : List ℕ) (m : ℕ) :
    gaOffX repr_in m ≤ reprDim repr_in := by
  rcases le_or_lt m repr_in.length with h | h
  · exact Finset.sum_le_sum_of_subset (Finset.range_subset.mpr h)
  · exact le_of_eq (gaOffX_of_le repr_in h.le)

/-- Reading off the head of a `drop`: element, tail, and length bound. -/
lemma getD_of_drop_cons {l : List ℕ} {m mul : ℕ} {rest : List ℕ}
    (h : l.drop m = mul :: rest) :
    l.getD m 0 = mul ∧ l.drop (m + 1) = rest ∧ m < l.length := by
  have hm : m < l.length := by
    have hlen := congrArg List.length h
    rw [List.length_drop] at hlen
    simp only [List.length_cons] at hlen
    omega
  refine ⟨?_, ?_, hm⟩
  · have h0 : (l.drop m).getD 0 0 = mul := by rw [h]; rfl
    rw [List.getD_eq_getElem _ _ (by rw [List.length_drop]; omega),
      List.getElem_drop] at h0
    rw [List.getD_eq_getElem _ _ hm]
    simpa using h0
  · have h1 : l.drop (m + 1) = (l.drop m).drop 1 := by
      rw [List.drop_drop]
    rw [h1, h]
    rfl

/-- The block loop, entered at block `m` with the running offsets it has
accumulated so far, produces exactly the closed-form block list from `m` on:
the running `begin_x` agrees with the prefix sum `gaOffX`, and (when gates
are installed) `begin_g` agrees with `gaOffG`. -/
lemma gaBlocks_eq_expectedFrom (σ : α → α) (sOn gOn : Bool)
    (repr_in : List ℕ) (x g : List α) :
    ∀ (rest : List ℕ) (m bx bg : ℕ), rest = repr_in.drop m →
      bx = gaOffX repr_in m → (gOn = true → bg = gaOffG repr_in m) →
      gaBlocks σ sOn gOn x g (rest.enumFrom m) bx bg =
        gaExpectedFrom σ sOn gOn repr_in x g m := by
  intro rest
  induction rest with
  | nil =>
    intro m bx bg hdrop _ _
    have hlen : repr_in.length ≤ m := by
      have hl := congrArg List.length hdrop
      rw [List.length_drop] at hl
      simp only [List.length_nil] at hl
      omega
    unfold gaExpectedFrom
    rw [Nat.sub_eq_zero_of_le hlen]
    simp [gaBlocks, List.enumFrom]
  | cons mul rest' ih =>
    intro m bx bg hdrop hbx hbg
    obtain ⟨hget, hdrop', hm⟩ := getD_of_drop_cons hdrop.symm
    have hget2 : repr_in[m]?.getD 0 = mul := by simpa using hget
    have henum : ((mul :: rest').enumFrom m) =
        (m, mul) :: rest'.enumFrom (m + 1) := rfl
    have hrange : List.range' m (repr_in.length - m) =
        m :: List.range' (m + 1) (repr_in.length - (m + 1)) := by
      have h1 : repr_in.length - m = (repr_in.length - (m + 1)) + 1 := by
        omega
      rw [h1, List.range'_succ]
    rw [henum]
    by_cases hz : mul = 0
    · simp only [gaBlocks]
      rw [if_pos hz]
      have hR : gaExpectedFrom σ sOn gOn repr_in x g m =
          gaExpectedFrom σ sOn gOn repr_in x g (m + 1) := by
        unfold gaExpectedFrom
        rw [hrange, List.filter_cons]
        have hd : (decide (repr_in.getD m 0 ≠ 0)) = false := by
          simp [hget2, hz]
        rw [hd]
        simp
      rw [hR]
      refine ih (m + 1) bx bg hdrop'.symm ?_ ?_
      · rw [hbx]
        unfold gaOffX
        rw [Finset.sum_range_succ, hget, hz]
        simp
      · intro hg
        rw [hbg hg]
        unfold gaOffG
        rw [Finset.sum_range_succ]
        by_cases hm0 : m = 0 <;> simp [hm0, hget2, hz]
    · simp only [gaBlocks]
      rw [if_neg hz]
      have hR : gaExpectedFrom σ sOn gOn repr_in x g m =
          gaBlockOut σ sOn gOn repr_in x g m ::
            gaExpectedFrom σ sOn gOn repr_in x g (m + 1) := by
        unfold gaExpectedFrom
        rw [hrange, List.filter_cons]
        have hd : (decide (repr_in.getD m 0 ≠ 0)) = true := by
          simp [hget2, hz]
        rw [hd]
        simp
      rw [hR]
      congr 1
      · unfold gaBlockOut
        rw [hget, ← hbx]
        by_cases h0 : m = 0
        · simp [h0]
        · by_cases hg : gOn = true
          · rw [hbg hg]
          · simp [h0, hg]
      · refine ih (m + 1) _ _ hdrop'.symm ?_ ?_
        · rw [hbx]
          unfold gaOffX
          rw [Finset.sum_range_succ, hget]
        · intro hg
          rw [hbg hg]
          unfold gaOffG
          rw [Finset.sum_range_succ]
          by_cases hm0 : m = 0
          · subst hm0
            simp [hg]
          · have hpos : 0 < m := Nat.pos_of_ne_zero hm0
            rw [if_pos ⟨hpos, hg⟩]
            simp [hm0, hget2]

/-- Length of one processed block: the slice length, capped by the channels
remaining in `x`. -/
lemma gaBlockOut_length (σ : α → α) (sOn gOn : Bool) (repr_in : List ℕ)
    (x g : List α) (n : ℕ) :
    (gaBlockOut σ sOn gOn repr_in x g n).length =
      min (repr_in.getD n 0 * (2 * n + 1)) (x.length - gaOffX repr_in n) := by
  unfold gaBlockOut
  by_cases h0 : n = 0 <;> by_cases hs : sOn = true <;>
    by_cases hg : gOn = true <;>
      simp [h0, hs, hg, List.length_take, List.length_drop,
        List.enum_length]

/-- Total length of the closed-form output from block `m` on, when the input
has exactly the declared channel count. -/
lemma gaExpectedFrom_flatten_length (σ : α → α) (sOn gOn : Bool)
    (repr_in : List ℕ) (x g : List α) (hx : x.length = reprDim repr_in) :
    ∀ (rest : List ℕ) (m : ℕ), rest = repr_in.drop m →
      ((gaExpectedFrom σ sOn gOn repr_in x g m).flatten).length =
        reprDim repr_in - gaOffX repr_in m := by
  intro rest
  induction rest with
  | nil =>
    intro m hdrop
    have hlen : repr_in.length ≤ m := by
      have hl := congrArg List.length hdrop
      rw [List.length_drop] at hl
      simp only [List.length_nil] at hl
      omega
    unfold gaExpectedFrom
    rw [Nat.sub_eq_zero_of_le hlen, gaOffX_of_le repr_in hlen]
    simp
  | cons mul rest' ih =>
    intro m hdrop
    obtain ⟨hget, hdrop', hm⟩ := getD_of_drop_cons hdrop.symm
    have hget2 : repr_in[m]?.getD 0 = mul := by simpa using hget
    have hrange : List.range' m (repr_in.length - m) =
        m :: List.range' (m + 1) (repr_in.length - (m + 1)) := by
      have h1 : repr_in.length - m = (repr_in.length - (m + 1)) + 1 := by
        omega
      rw [h1, List.range'_succ]
    have hsucc : gaOffX repr_in (m + 1) =
        gaOffX repr_in m + mul * (2 * m + 1) := by
      unfold gaOffX
      rw [Finset.sum_range_succ, hget]
    have hle : gaOffX repr_in (m + 1) ≤ reprDim repr_in :=
      gaOffX_le repr_in (m + 1)
    by_cases hz : mul = 0
    · have hR : gaExpectedFrom σ sOn gOn repr_in x g m =
          gaExpectedFrom σ sOn gOn repr_in x g (m + 1) := by
        unfold gaExpectedFrom
        rw [hrange, List.filter_cons]
        have hd : (decide (repr_in.getD m 0 ≠ 0)) = false := by
          simp [hget2, hz]
        rw [hd]
        simp
      rw [hz, Nat.zero_mul, Nat.add_zero] at hsucc
      rw [hR, ih (m + 1) hdrop'.symm, hsucc]
      omega
    · have hR : gaExpectedFrom σ sOn gOn repr_in x g m =
          gaBlockOut σ sOn gOn repr_in x g m ::
            gaExpectedFrom σ sOn gOn repr_in x g (m + 1) := by
        unfold gaExpectedFrom
        rw [hrange, List.filter_cons]
        have hd : (decide (repr_in.getD m 0 ≠ 0)) = true := by
          simp [hget2, hz]
        rw [hd]
        simp
      rw [hR]
      rw [List.flatten_cons, List.length_append]
      rw [ih (m + 1) hdrop'.symm, gaBlockOut_length, hget]
      omega

/-- With at least one nonzero multiplicity, the closed-form block list is
non-empty. -/
lemma gaExpectedFrom_zero_ne_nil (σ : α → α) (sOn gOn : Bool)
    (repr_in : List ℕ) (x g : List α)
    (hnz : ∃ mul ∈ repr_in, mul ≠ 0) :
    gaExpectedFrom σ sOn gOn repr_in x g 0 ≠ [] := by
  obtain ⟨mul, hmem, hne⟩ := hnz
  obtain ⟨t, ht, hgt⟩ := List.mem_iff_getElem.mp hmem
  intro hcon
  unfold gaExpectedFrom at hcon
  rw [List.map_eq_nil_iff, List.filter_eq_nil_iff] at hcon
  have htmem : t ∈ List.range' 0 (repr_in.length - 0) := by
    rw [List.mem_range']
    exact ⟨t, by omega, by omega⟩
  apply hcon t htmem
  have hget2 : repr_in[t]?.getD 0 = mul := by
    have h1 : repr_in.getD t 0 = mul := by
      rw [List.getD_eq_getElem repr_in 0 ht, hgt]
    simpa using h1
  simp [hget2, hne]

/-- Claim C6: for an input whose channel count matches the representation
list (with at least one nonzero multiplicity), `forward` succeeds and
returns exactly the closed-form output: the processed blocks in input block
order, concatenated, with the same total channel count as the input — for
EVERY gate tensor `g`, whose channels enter only as multiplicative factors
and are never concatenated into the output. -/
theorem claim_C6 (σ : α → α) (sOn gOn : Bool) (repr_in : List ℕ)
    (x g : List α) (hx : x.length = reprDim repr_in)
    (hnz : ∃ mul ∈ repr_in, mul ≠ 0) :
    GatedActivation.forward σ sOn gOn repr_in x g =
      some (gaExpected σ sOn gOn repr_in x g) ∧
    (gaExpected σ sOn gOn repr_in x g).length = x.length := by
  have hmain := gaBlocks_eq_expectedFrom σ sOn gOn repr_in x g repr_in 0 0 0
    (by simp) (by rw [gaOffX_zero]) (fun _ => by rw [gaOffG_zero])
  have hne := gaExpectedFrom_zero_ne_nil σ sOn gOn repr_in x g hnz
  constructor
  · have hunf : GatedActivation.forward σ sOn gOn repr_in x g =
        if (gaBlocks σ sOn gOn x g (repr_in.enumFrom 0) 0 0).isEmpty then
          none
        else some (gaBlocks σ sOn gOn x g (repr_in.enumFrom 0) 0 0).flatten :=
      rfl
    rw [hunf, hmain]
    rw [if_neg (by simpa [List.isEmpty_iff] using hne)]
    rfl
  · have hlen := gaExpectedFrom_flatten_length σ sOn gOn repr_in x g hx
      repr_in 0 (by simp)
    unfold gaExpected
    rw [hlen, gaOffX_zero, hx]
    omega

/-- Claim C6, witness: `repr_in = (1, 1)` (one scalar channel, one
3-dimensional capsule), input of 4 channels, an arbitrary gate tensor. -/
theorem claim_C6_witness :
    ([5, 1, 2, 3] : List ℤ).length = reprDim [1, 1] ∧
    (GatedActivation.forward (fun v : ℤ => v + 1) true true [1, 1]
      [5, 1, 2, 3] [2, 9] =
      some (gaExpected (fun v : ℤ => v + 1) true true [1, 1]
        [5, 1, 2, 3] [2, 9]) ∧
    (gaExpected (fun v : ℤ => v + 1) true true [1, 1]
      [5, 1, 2, 3] [2, 9]).length = ([5, 1, 2, 3] : List ℤ).length) :=
  ⟨by decide,
   claim_C6 (fun v : ℤ => v + 1) true true [1, 1] [5, 1, 2, 3] [2, 9]
     (by decide) (by decide)⟩

/-- Length of the un-normalized basis list: the central elements are counted
in exactly the central-base-and-odd-size case. -/
lemma rawBasis_length (size : ℕ) (cb : Bool) (Ks : List CMat)
    (sampled : List BT5) :
    (rawBasis size cb Ks sampled).length =
      if cb = true ∧ size % 2 = 1 then Ks.length + sampled.length
      else sampled.length := by
  unfold rawBasis
  split <;> simp

/-- Claim C7: every generated basis element is the corresponding
un-normalized candidate divided by its Frobenius norm, multiplied by
`sqrt(dim(R_out) / basis_count)`, divided by `sqrt(multiplicity_in)`, where
`basis_count` is the TOTAL number of elements for the pair — the sampled
ones plus the central ones whenever the central basis is in use. -/
theorem claim_C7 (dO dI size mIn : ℕ) (cb : Bool) (Ks : List CMat)
    (sampled : List BT5) (k : ℕ)
    (hk : k < (rawBasis size cb Ks sampled).length) :
    (generate_basis dO dI size mIn cb Ks sampled).getD k zBT5 =
      fun a b x y z =>
        (rawBasis size cb Ks sampled).getD k zBT5 a b x y z /
          frobNorm dO dI size ((rawBasis size cb Ks sampled).getD k zBT5) *
          Real.sqrt ((dO : ℝ) /
            (((if cb = true ∧ size % 2 = 1 then Ks.length + sampled.length
               else sampled.length) : ℕ) : ℝ)) /
          Real.sqrt (mIn : ℝ) := by
  unfold generate_basis
  rw [← rawBasis_length]
  rw [List.getD_eq_getElem _ _ (by rw [List.length_map]; exact hk),
    List.getElem_map, List.getD_eq_getElem _ _ hk]
  rfl

/-- Claim C7, witness: one sampled element, no central basis. -/
theorem claim_C7_witness :
    0 < (rawBasis 1 false [] [zBT5]).length ∧
    (generate_basis 1 1 1 1 false [] [zBT5]).getD 0 zBT5 =
      fun a b x y z =>
        (rawBasis 1 false [] [zBT5]).getD 0 zBT5 a b x y z /
          frobNorm 1 1 1 ((rawBasis 1 false [] [zBT5]).getD 0 zBT5) *
          Real.sqrt ((((1 : ℕ)) : ℝ) /
            (((if false = true ∧ 1 % 2 = 1 then
                ([] : List CMat).length + ([zBT5] : List BT5).length
               else ([zBT5] : List BT5).length) : ℕ) : ℝ)) /
          Real.sqrt ((1 : ℕ) : ℝ) :=
  ⟨by simp [rawBasis], claim_C7 1 1 1 1 false [] [zBT5] 0 (by simp [rawBasis])⟩

/-- Claim C8: with the central-basis option on and an odd kernel size, the
generated list has `len(Ks) + len(sampled)` elements, its FIRST `len(Ks)`
elements are the normalized central solutions in order (prepended before
every sampled element), and each of them vanishes at every voxel other than
the center `(size/2, size/2, size/2)`. -/
theorem claim_C8 (dO dI size mIn : ℕ) (Ks : List CMat) (sampled : List BT5)
    (hodd : size % 2 = 1) :
    (generate_basis dO dI size mIn true Ks sampled).length =
      Ks.length + sampled.length ∧
    ∀ k, k < Ks.length →
      (generate_basis dO dI size mIn true Ks sampled).getD k zBT5 =
        normalizeK dO dI size (Ks.length + sampled.length) mIn
          (centerK size (Ks.getD k zCMat)) ∧
      ∀ a b x y z, ¬(x = size / 2 ∧ y = size / 2 ∧ z = size / 2) →
        (generate_basis dO dI size mIn true Ks sampled).getD k zBT5
          a b x y z = 0 := by
  have hraw : rawBasis size true Ks sampled =
      Ks.map (centerK size) ++ sampled := by
    unfold rawBasis
    rw [if_pos ⟨rfl, hodd⟩]
  have hlen : (rawBasis size true Ks sampled).length =
      Ks.length + sampled.length := by
    rw [hraw]
    simp
  constructor
  · unfold generate_basis
    rw [List.length_map, hlen]
  · intro k hk
    have hk' : k < (rawBasis size true Ks sampled).length := by omega
    have hkm : k < (Ks.map (centerK size)).length := by
      rw [List.length_map]
      exact hk
    have helem : (rawBasis size true Ks sampled).getD k zBT5 =
        centerK size (Ks.getD k zCMat) := by
      rw [hraw, List.getD_append _ _ _ _ hkm,
        List.getD_eq_getElem _ _ hkm, List.getElem_map,
        List.getD_eq_getElem _ _ hk]
    have hmain : (generate_basis dO dI size mIn true Ks sampled).getD k
        zBT5 = normalizeK dO dI size (Ks.length + sampled.length) mIn
          (centerK size (Ks.getD k zCMat)) := by
      unfold generate_basis
      rw [List.getD_eq_getElem _ _ (by rw [List.length_map]; exact hk'),
        List.getElem_map, ← List.getD_eq_getElem _ zBT5 hk', helem, hlen]
    refine ⟨hmain, ?_⟩
    intro a b x y z hoff
    rw [hmain]
    unfold normalizeK centerK
    rw [if_neg hoff]
    simp

/-- Claim C8, witness: kernel size 3, one central solution, no sampled
elements. -/
theorem claim_C8_witness :
    3 % 2 = 1 ∧
    ((generate_basis 1 1 3 1 true [fun _ _ => (1 : ℝ)] []).length =
      ([fun _ _ => (1 : ℝ)] : List CMat).length + ([] : List BT5).length ∧
    ∀ k, k < ([fun _ _ => (1 : ℝ)] : List CMat).length →
      (generate_basis 1 1 3 1 true [fun _ _ => (1 : ℝ)] []).getD k zBT5 =
        normalizeK 1 1 3 (([fun _ _ => (1 : ℝ)] : List CMat).length +
            ([] : List BT5).length) 1
          (centerK 3 (([fun _ _ => (1 : ℝ)] : List CMat).getD k zCMat)) ∧
      ∀ a b x y z, ¬(x = 3 / 2 ∧ y = 3 / 2 ∧ z = 3 / 2) →
        (generate_basis 1 1 3 1 true [fun _ _ => (1 : ℝ)] []).getD k zBT5
          a b x y z = 0) :=
  ⟨rfl, claim_C8 1 1 3 1 [fun _ _ => (1 : ℝ)] [] rfl⟩
